import Mathlib

set_option maxRecDepth 100000

/-!
Verification development for a two-domain prime generator.

The program has two pipelines: a fixed 64-bit one (`ComputePrimes64bits.cpp`,
functions `mul_mod`, `pow_mod`, `is_prime_u64`, `next_candidate_u64`,
`generate_primes_u64`, `main`) and an arbitrary-precision one
(`ComputeBigPrimesCPP.cpp`, functions `mulmod`, `powmod`, `miller_rabin`,
`is_prime`, `next_candidate`, `generate_primes`, `main`).

The embedding below is shallow: `uint64_t` values are natural numbers with
explicit `% 2^64` at every operation that can wrap in C, `cpp_int` values are
plain natural numbers (exact arithmetic), `while` loops become fuel-indexed
structural recursions whose fuel provably suffices, and the process-local
`std::mt19937_64` engine is modelled as an arbitrary word stream `ℕ → ℕ`
(every sequence of 64-bit draws corresponds to some stream, so universally
quantified theorems cover every possible engine state).
-/

/-- `2^64`, the modulus of `uint64_t` arithmetic. -/
def U64MOD : Nat := 2 ^ 64

/-- `std::numeric_limits<uint64_t>::max() = 2^64 - 1`. -/
def U64MAX : Nat := 2 ^ 64 - 1

/-! ## 64-bit domain: modular arithmetic (`ComputePrimes64bits.cpp`) -/

/-- `mul_mod`, GCC/Clang branch: the full 128-bit product `(u128)a * b` is
formed and reduced; since `a, b < 2^64` the product fits in 128 bits, so the
branch computes the exact `a * b mod m`. -/
def mul_mod (a b m : Nat) : Nat := a * b % m

/-- Body of the MSVC `mul_mod` fallback loop (repeated doubling). All
additions are `uint64_t` additions, hence taken `% 2^64`. The source guards
the doubling with `if (base >= mod || base < base - base)`, and
`base < base - base` is `base < 0`, which is always false for unsigned
values; it is kept verbatim. The loop runs while `bb != 0`; 64 units of
fuel suffice for any `bb < 2^64` since `bb` is halved each iteration. -/
def msvcLoop : Nat → Nat → Nat → Nat → Nat → Nat
  | 0, result, _, _, m => result % m
  | fuel + 1, result, base, bb, m =>
    if bb ≠ 0 then
      let result' :=
        if bb % 2 = 1 then
          let tmp := (result + base) % U64MOD
          let tmp' := if tmp < result ∨ m ≤ tmp then tmp % m else tmp
          tmp' % m
        else result
      let bb' := bb / 2
      let base' :=
        if bb' ≠ 0 then
          let b2 := (base + base) % U64MOD
          if m ≤ b2 ∨ b2 < b2 - b2 then b2 % m else b2
        else base
      msvcLoop fuel result' base' bb' m
    else result % m

/-- `mul_mod`, MSVC branch: repeated doubling/halving fallback. -/
def mul_mod_msvc (a b m : Nat) : Nat := msvcLoop 64 0 (a % m) b m

/-- Shared shape of the three binary exponentiation loops
(`pow_mod` in the 64-bit file, `powmod` in the big file), parameterised by
the modular multiplication in use. Mirrors
`while (d) { if (d & 1) res = mm(res, a, m); a = mm(a, a, m); d >>= 1; }`. -/
def powLoop (mm : Nat → Nat → Nat → Nat) : Nat → Nat → Nat → Nat → Nat → Nat
  | 0, res, _, _, _ => res
  | fuel + 1, res, a, d, m =>
    if d ≠ 0 then
      powLoop mm fuel (if d % 2 = 1 then mm res a m else res) (mm a a m) (d / 2) m
    else res

/-- 64-bit `pow_mod` (exact-multiply branch). Note `res` starts at `1`,
not `1 % mod`. Fuel 64 suffices for any `d < 2^64`. -/
def pow_mod (a d m : Nat) : Nat := powLoop mul_mod 64 1 (a % m) d m

/-- 64-bit `pow_mod` built on the MSVC `mul_mod` fallback. -/
def pow_mod_msvc (a d m : Nat) : Nat := powLoop mul_mod_msvc 64 1 (a % m) d m

/-! ## 64-bit domain: primality test -/

/-- The 64-bit file's `small_primes` table (primes up to 37). -/
def small_primes_u64 : List Nat := [2, 3, 5, 7, 11, 13, 17, 19, 23, 29, 31, 37]

/-- The deterministic Miller-Rabin witness bases of the 64-bit file. -/
def mr_bases : List Nat := [2, 325, 9375, 28178, 450775, 9780504, 1795265022]

/-- Trial-division scan shared by both files:
`if (n == p) return true; if (n % p == 0) return false;` over a table;
`none` means the scan fell through without deciding. -/
def trialScan (table : List Nat) (n : Nat) : Option Bool :=
  match table with
  | [] => none
  | p :: rest => if n = p then some true else if n % p = 0 then some false else trialScan rest n

/-- `n - 1 = d * 2^s` decomposition loop: `while ((d & 1) == 0) { d >>= 1; ++s; }`.
Fuel-indexed; any fuel with `d < 2^fuel` suffices. -/
def decompAux : Nat → Nat → Nat → Nat × Nat
  | 0, d, s => (d, s)
  | fuel + 1, d, s => if d % 2 = 0 then decompAux fuel (d / 2) (s + 1) else (d, s)

/-- Inner witness loop `for (r = 1; r < s; ++r) { x = mm(x, x, n); if (x == n-1) ... }`,
parameterised by the modular multiplication; returns `true` iff some squaring
step reaches `n - 1`. Called with `s - 1` iterations. -/
def sqLoop (mm : Nat → Nat → Nat → Nat) : Nat → Nat → Nat → Bool
  | 0, _, _ => false
  | k + 1, x, n =>
    let x' := mm x x n
    if x' = n - 1 then true else sqLoop mm k x' n

/-- The base loop of `is_prime_u64`: returns `false` as soon as some base
proves `n` composite. -/
def basesPass (mm : Nat → Nat → Nat → Nat) (n d s : Nat) : List Nat → Bool
  | [] => true
  | a :: rest =>
    if a % n = 0 then basesPass mm n d s rest
    else
      let x := powLoop mm 64 1 (a % n) d n
      if x = 1 ∨ x = n - 1 then basesPass mm n d s rest
      else if sqLoop mm (s - 1) x n then basesPass mm n d s rest
      else false

/-- `is_prime_u64`, parameterised by the `mul_mod` implementation
(the source selects one of two branches with `#ifdef _MSC_VER`). -/
def is_prime_u64_with (mm : Nat → Nat → Nat → Nat) (n : Nat) : Bool :=
  if n < 2 then false
  else
    match trialScan small_primes_u64 n with
    | some b => b
    | none =>
      let ds := decompAux 64 (n - 1) 0
      basesPass mm n ds.1 ds.2 mr_bases

/-- `is_prime_u64` as compiled with GCC/Clang (exact 128-bit multiply). -/
def is_prime_u64 (n : Nat) : Bool := is_prime_u64_with mul_mod n

/-- `is_prime_u64` as compiled with MSVC (doubling fallback `mul_mod`). -/
def is_prime_u64_msvc (n : Nat) : Bool := is_prime_u64_with mul_mod_msvc n

/-! ## 64-bit domain: candidate generation -/

/-- The `while (n % 3 == 0) n += 2;` loop of `next_candidate_u64`; the
increment is a `uint64_t` addition and wraps. At most one iteration ever
runs (after `n += 2` the value is `1` or `≡ 2 (mod 3)`), so fuel 3 is ample. -/
def nextCanU64Loop : Nat → Nat → Nat
  | 0, n => n
  | fuel + 1, n => if n % 3 = 0 then nextCanU64Loop fuel ((n + 2) % U64MOD) else n

/-- `next_candidate_u64`. -/
def next_candidate_u64 (n : Nat) : Nat :=
  if n ≤ 2 then 2
  else nextCanU64Loop 3 (if n % 2 = 0 then (n + 1) % U64MOD else n)

/-- The collection loop of `generate_primes_u64`:
`while (size < count) { if prime push; if (n >= max - 2) break; n += 2; }`. -/
def genLoopU64 (count : Nat) : Nat → Nat → List Nat → List Nat
  | 0, _, acc => acc
  | fuel + 1, n, acc =>
    if acc.length < count then
      if U64MAX - 2 ≤ n then (if is_prime_u64 n then acc ++ [n] else acc)
      else genLoopU64 count fuel ((n + 2) % U64MOD) (if is_prime_u64 n then acc ++ [n] else acc)
    else acc

/-- `generate_primes_u64`. Fuel `2^64` suffices: the candidate grows by 2
every iteration and the loop breaks at `2^64 - 3` at the latest. -/
def generate_primes_u64 (start count : Nat) : List Nat :=
  let n := next_candidate_u64 start
  if n = 2 then genLoopU64 count U64MOD 3 [2]
  else genLoopU64 count U64MOD n []

/-! ## Unbounded domain (`ComputeBigPrimesCPP.cpp`): arithmetic and primality -/

/-- The big file's `SMALL_PRIMES` table (all 95 primes up to 499). -/
def SMALL_PRIMES : List Nat :=
  [2, 3, 5, 7, 11, 13, 17, 19, 23, 29, 31, 37, 41, 43, 47, 53, 59, 61, 67, 71,
   73, 79, 83, 89, 97, 101, 103, 107, 109, 113, 127, 131, 137, 139, 149, 151,
   157, 163, 167, 173, 179, 181, 191, 193, 197, 199, 211, 223, 227, 229, 233,
   239, 241, 251, 257, 263, 269, 271, 277, 281, 283, 293, 307, 311, 313, 317,
   331, 337, 347, 349, 353, 359, 367, 373, 379, 383, 389, 397, 401, 409, 419,
   421, 431, 433, 439, 443, 449, 457, 461, 463, 467, 479, 487, 491, 499]

/-- `mulmod` on `cpp_int`: exact `(a * b) % mod`. -/
def mulmod (a b m : Nat) : Nat := a * b % m

/-- `powmod` on `cpp_int`: binary exponentiation with `res = 1 % mod` and
`base %= mod`. Fuel `e + 1` suffices since the exponent is halved each turn. -/
def powmod (b e m : Nat) : Nat := powLoop mulmod (e + 1) (1 % m) (b % m) e m

/-- Model of the process-local `std::mt19937_64` engine: the stream of
64-bit words it would emit. Quantifying over all streams covers every
possible seed and engine state. -/
abbrev RngStream := Nat → Nat

/-- One draw of `std::uniform_int_distribution<uint64_t> dist64(2, 2^64-1)`
at stream position `i`: some word in `[2, 2^64-1]`; as `g` ranges over all
streams this attains every value in that interval. -/
def dist64 (g : RngStream) (i : Nat) : Nat := 2 + g i % (U64MOD - 2)

/-- The limb-assembly loop of `random_base`:
`for (i = 0; i < limbs; ++i) { a <<= 64; a += dist64(rng); }`,
threading the stream position. -/
def limbFold (g : RngStream) : Nat → Nat → Nat → Nat × Nat
  | 0, a, pos => (a, pos)
  | k + 1, a, pos => limbFold g k (a * U64MOD + dist64 g pos) (pos + 1)

/-- The `random_base` lambda of `miller_rabin`: draws enough 64-bit limbs to
cover the bit width of `limit_minus_two` (`boost msb` is `Nat.log2`), then
reduces into `[2, limit_minus_two]`. Returns the base and the new stream
position. -/
def random_base (g : RngStream) (limit : Nat) (pos : Nat) : Nat × Nat :=
  if limit ≤ 2 then (2, pos)
  else
    let bits := Nat.log2 limit + 1
    let limbs := (bits + 63) / 64
    let ap := limbFold g limbs 0 pos
    let a := ap.1
    let a' := if a ≤ 1 then a + 2 else a
    (a' % (limit - 1) + 2, ap.2)

/-- The round loop of `miller_rabin`: `rounds` random bases, each tested by
`x = powmod(a, d, n)`, the `x == 1 || x == n-1` check, and the squaring
loop; `false` as soon as one base proves `n` composite. -/
def mrRounds (g : RngStream) (n d s : Nat) : Nat → Nat → Bool × Nat
  | 0, pos => (true, pos)
  | t + 1, pos =>
    let ap := random_base g (n - 2) pos
    let x := powmod ap.1 d n
    if x = 1 ∨ x = n - 1 then mrRounds g n d s t ap.2
    else if sqLoop mulmod (s - 1) x n then mrRounds g n d s t ap.2
    else (false, ap.2)

/-- `miller_rabin(n, rounds, rng)`: the `n < 2` guard, the small-prime scan,
`decompose`, then the round loop. Fuel `n` is ample for `decompose`
(`n - 1 < 2^n`). -/
def miller_rabin (n rounds : Nat) (g : RngStream) (pos : Nat) : Bool × Nat :=
  if n < 2 then (false, pos)
  else
    match trialScan SMALL_PRIMES n with
    | some b => (b, pos)
    | none =>
      let ds := decompAux n (n - 1) 0
      mrRounds g n ds.1 ds.2 rounds pos

/-- `is_prime(n, rng)`: its own `n < 2` guard and small-prime scan, then
`miller_rabin(n, 32, rng)`. -/
def is_prime (n : Nat) (g : RngStream) (pos : Nat) : Bool × Nat :=
  if n < 2 then (false, pos)
  else
    match trialScan SMALL_PRIMES n with
    | some b => (b, pos)
    | none => miller_rabin n 32 g pos

/-! ## Unbounded domain: candidate generation -/

/-- The filter loop of the big `next_candidate`:
`while (true) { if (n % 3 != 0 && n % 5 != 0) return n; n += 2; }`.
From any value, at most two consecutive probes are divisible by 3 or 5,
so fuel 3 always returns through the `return n` branch. -/
def nextCanBigLoop : Nat → Nat → Nat
  | 0, n => n
  | fuel + 1, n => if n % 3 ≠ 0 ∧ n % 5 ≠ 0 then n else nextCanBigLoop fuel (n + 2)

/-- The big `next_candidate`. `cpp_int` is signed, so the argument is an
integer; for `n > 2` all computation happens on naturals. -/
def next_candidate (n : Int) : Nat :=
  if n ≤ 2 then 2
  else nextCanBigLoop 3 (if n.toNat % 2 = 0 then n.toNat + 1 else n.toNat)

/-- The collection loop of the big `generate_primes`:
`while (size < count) { if (is_prime(n, &rng)) push; n += 2; }`,
threading the engine position. The loop has no numeric ceiling; it is
fuel-indexed and the development proves that sufficiently large fuel
collects exactly `count` values. -/
def genLoopBig (g : RngStream) (count : Nat) : Nat → Nat → List Nat → Nat → List Nat
  | 0, _, acc, _ => acc
  | fuel + 1, n, acc, pos =>
    if acc.length < count then
      genLoopBig g count fuel (n + 2)
        (if (is_prime n g pos).1 then acc ++ [n] else acc) (is_prime n g pos).2
    else acc

/-- The big `generate_primes(start, count)`, with the freshly seeded engine
modelled by the stream `g` and the loop by `genLoopBig` at the given fuel. -/
def generate_primes (g : RngStream) (start : Int) (count : Nat) (fuel : Nat) : List Nat :=
  let n := next_candidate start
  if n = 2 then genLoopBig g count fuel 3 [2] 0
  else genLoopBig g count fuel n [] 0

/-! ## CLI entry points

Model of `std::stoull` (used by both `main`s for the count, and by the
64-bit `main` for the start): skip whitespace, optional sign, at least one
decimal digit, value reduced as `unsigned long long` conversion demands;
`none` models a thrown `std::invalid_argument` / `std::out_of_range`. -/

/-- Digits-prefix accumulator for the parsing models. -/
def digitsVal : List Char → Nat → Option Nat
  | [], acc => some acc
  | c :: rest, acc =>
    if c.isDigit then digitsVal rest (acc * 10 + (c.toNat - '0'.toNat)) else some acc

/-- Modelled from the semantics of `std::stoull` (the source's own code is
just calls into the C++ standard library): leading whitespace, optional
`+`/`-`, a nonempty run of decimal digits (tolerating trailing garbage);
magnitude above `2^64 - 1` throws `out_of_range` (`none`); a `-` sign wraps
modulo `2^64`. -/
def stoullModel (s : String) : Option Nat :=
  let cs := s.toList.dropWhile (fun c => c.isWhitespace)
  let sign := cs.head? = some '-'
  let cs := if cs.head? = some '-' ∨ cs.head? = some '+' then cs.tail else cs
  if cs.head?.elim false (fun c => c.isDigit) then
    match digitsVal cs 0 with
    | some v =>
      if U64MAX < v then none
      else some (if sign then (U64MOD - v) % U64MOD else v)
    | none => none
  else none

/-- Modelled from the semantics of `operator>>(std::istream, cpp_int)`:
leading whitespace, optional sign, a nonempty run of decimal digits,
no magnitude limit; `none` models a failed stream. -/
def cppIntReadModel (s : String) : Option Int :=
  let cs := s.toList.dropWhile (fun c => c.isWhitespace)
  let sign := cs.head? = some '-'
  let cs := if cs.head? = some '-' ∨ cs.head? = some '+' then cs.tail else cs
  if cs.head?.elim false (fun c => c.isDigit) then
    match digitsVal cs 0 with
    | some v => some (if sign then -(v : Int) else (v : Int))
    | none => none
  else none

/-- Exit status of a modelled process: `ok code` is a normal `return code`;
`uncaught` models an exception that propagates out of `main` (abnormal
termination, neither exit code 0 nor 1). -/
inductive ExitResult where
  | ok : Nat → ExitResult
  | uncaught : ExitResult
deriving DecidableEq

/-- `main` of the 64-bit executable, on `argv[1..]`: `start` defaults to
`2^64 - 1`; a bad first argument is caught and exits 1; the second argument
goes through `std::stoull` with no try/catch, so a bad count propagates an
exception. On success the primes are computed and printed and `main`
returns 0. -/
def main_u64 (args : List String) : ExitResult :=
  let start? : Option Nat :=
    match args[0]? with
    | none => some 18446744073709551615
    | some s => stoullModel s
  match start? with
  | none => .ok 1
  | some start =>
    let count? : Option Nat :=
      match args[1]? with
      | none => some 100
      | some s => stoullModel s
    match count? with
    | none => .uncaught
    | some count =>
      let _ := generate_primes_u64 start count
      .ok 0

/-- `main` of the unbounded executable, on `argv[1..]` and an engine
stream: `start` defaults to parsing `"18446744073713598463"`; a bad first
argument exits 1; the second argument goes through `std::stoull` with no
try/catch. On success the primes are computed and printed and `main`
returns 0 (`fuel` instantiates the collection loop). -/
def main_big (args : List String) (g : RngStream) (fuel : Nat) : ExitResult :=
  let start? : Option Int :=
    match args[0]? with
    | none => cppIntReadModel "18446744073713598463"
    | some s => cppIntReadModel s
  match start? with
  | none => .ok 1
  | some start =>
    let count? : Option Nat :=
      match args[1]? with
      | none => some 100
      | some s => stoullModel s
    match count? with
    | none => .uncaught
    | some count =>
      let _ := generate_primes g start count fuel
      .ok 0


/-! ## Correctness of the exact binary-exponentiation loops -/

/-- Auxiliary modular identity: a reduced power factor can be unreduced
under an outer `% m`. -/
theorem mulPowModAux (m x y k : Nat) : x * (y % m) ^ k % m = x * y ^ k % m := by
  rw [Nat.mul_mod, ← Nat.pow_mod, ← Nat.mul_mod]

theorem powLoop_exact (m : Nat) (mm : Nat → Nat → Nat → Nat)
    (hmm : ∀ a b, mm a b m = a * b % m) :
    ∀ f res base e, e < 2 ^ f →
      powLoop mm f res base e m = if e = 0 then res else res * base ^ e % m := by
  intro f
  induction f with
  | zero => intro res base e he; simp only [pow_zero, Nat.lt_one_iff] at he; simp [he, powLoop]
  | succ f ih =>
    intro res base e he
    by_cases h0 : e = 0
    · simp [h0, powLoop]
    · have he2 : e / 2 < 2 ^ f := by
        have : 2 ^ (f + 1) = 2 ^ f * 2 := by ring
        omega
      rw [powLoop, if_pos h0, ih _ _ _ he2]
      simp only [hmm]
      rw [if_neg h0]
      by_cases hpar : e % 2 = 1
      · have hsplit : e = 2 * (e / 2) + 1 := by omega
        by_cases hq : e / 2 = 0
        · rw [if_pos hq, if_pos hpar]
          rw [hq] at hsplit
          rw [hsplit]; ring_nf
        · rw [if_neg hq, if_pos hpar, Nat.mod_mul_mod, mulPowModAux]
          conv_rhs => rw [hsplit]
          ring_nf
      · have hq : e / 2 ≠ 0 := by omega
        have hsplit : e = 2 * (e / 2) := by omega
        rw [if_neg hq, if_neg hpar, mulPowModAux]
        conv_rhs => rw [hsplit]
        ring_nf

/-- The big `powmod` computes `base ^ exp mod m` for every modulus `m ≥ 1`,
every base and every exponent (including `exp = 0`, thanks to `res = 1 % m`). -/
theorem powmod_eq (b e m : Nat) (_hm : 1 ≤ m) : powmod b e m = b ^ e % m := by
  have he : e < 2 ^ (e + 1) :=
    lt_of_lt_of_le (Nat.lt_two_pow e) (Nat.pow_le_pow_right (by norm_num) (by omega))
  rw [powmod, powLoop_exact m mulmod (fun _ _ => rfl) _ _ _ _ he]
  by_cases h0 : e = 0
  · simp [h0]
  · rw [if_neg h0, Nat.mod_mul_mod, one_mul, ← Nat.pow_mod]

/-- The 64-bit `pow_mod` (exact-multiply branch) computes `a ^ d mod m`
whenever `d ≥ 1` or `m ≥ 2`; with `d = 0` and `m = 1` it returns its
unnormalized initial value `res = 1`. -/
theorem pow_mod_eq (a d m : Nat) (hm : 1 ≤ m) (hd : d < 2 ^ 64)
    (h : d ≠ 0 ∨ 2 ≤ m) : pow_mod a d m = a ^ d % m := by
  rw [pow_mod, powLoop_exact m mul_mod (fun _ _ => rfl) _ _ _ _ hd]
  by_cases h0 : d = 0
  · rw [if_pos h0, h0, pow_zero, Nat.mod_eq_of_lt (by omega)]
  · rw [if_neg h0, one_mul, ← Nat.pow_mod]

/-- `pow_mod` with `res = 1` unnormalized: at `d = 0`, `m = 1` it returns 1. -/
theorem pow_mod_zero_one (a : Nat) : pow_mod a 0 1 = 1 := rfl

/-! ## The `d * 2^s` decomposition -/

theorem decompAux_spec : ∀ f d s, d ≠ 0 → d < 2 ^ f →
    (decompAux f d s).1 % 2 = 1 ∧ s ≤ (decompAux f d s).2 ∧
      (decompAux f d s).1 * 2 ^ ((decompAux f d s).2 - s) = d := by
  intro f
  induction f with
  | zero => intro d s hd hlt; simp only [pow_zero, Nat.lt_one_iff] at hlt; omega
  | succ f ih =>
    intro d s hd hlt
    by_cases hev : d % 2 = 0
    · have h2 : d / 2 ≠ 0 := by omega
      have hlt2 : d / 2 < 2 ^ f := by
        have : 2 ^ (f + 1) = 2 ^ f * 2 := by ring
        omega
      have := ih (d / 2) (s + 1) h2 hlt2
      obtain ⟨hodd, hle, heq⟩ := this
      rw [decompAux, if_pos hev]
      refine ⟨hodd, by omega, ?_⟩
      have hsub : (decompAux f (d / 2) (s + 1)).2 - s = ((decompAux f (d / 2) (s + 1)).2 - (s + 1)) + 1 := by
        omega
      rw [hsub, pow_succ, ← mul_assoc, heq]
      omega
    · rw [decompAux, if_neg hev]
      exact ⟨by omega, le_refl s, by simp⟩

/-! ## The trial-division scan -/

theorem trialScan_none {table : List Nat} {n : Nat} (h : trialScan table n = none) :
    ∀ q ∈ table, n ≠ q ∧ n % q ≠ 0 := by
  induction table with
  | nil => simp
  | cons p rest ih =>
    intro q hq
    rw [trialScan] at h
    by_cases h1 : n = p
    · rw [if_pos h1] at h; exact absurd h (by simp)
    · rw [if_neg h1] at h
      by_cases h2 : n % p = 0
      · rw [if_pos h2] at h; exact absurd h (by simp)
      · rw [if_neg h2] at h
        rcases List.mem_cons.mp hq with rfl | hq'
        · exact ⟨h1, h2⟩
        · exact ih h q hq'

theorem trialScan_some_false {table : List Nat} {n : Nat}
    (h : trialScan table n = some false) : ∃ q ∈ table, n % q = 0 ∧ n ≠ q := by
  induction table with
  | nil => simp [trialScan] at h
  | cons p rest ih =>
    rw [trialScan] at h
    by_cases h1 : n = p
    · rw [if_pos h1] at h; exact absurd h (by simp)
    · rw [if_neg h1] at h
      by_cases h2 : n % p = 0
      · exact ⟨p, List.mem_cons_self p rest, h2, h1⟩
      · rw [if_neg h2] at h
        obtain ⟨q, hq, hmod, hne⟩ := ih h
        exact ⟨q, List.mem_cons_of_mem p hq, hmod, hne⟩

theorem trialScan_some_true {table : List Nat} {n : Nat}
    (h : trialScan table n = some true) : n ∈ table := by
  induction table with
  | nil => simp [trialScan] at h
  | cons p rest ih =>
    rw [trialScan] at h
    by_cases h1 : n = p
    · exact h1 ▸ List.mem_cons_self p rest
    · rw [if_neg h1] at h
      by_cases h2 : n % p = 0
      · rw [if_pos h2] at h; exact absurd h (by simp)
      · rw [if_neg h2] at h
        exact List.mem_cons_of_mem p (ih h)

/-- Every entry of the big small-prime table is prime. -/
theorem SMALL_PRIMES_prime : ∀ q ∈ SMALL_PRIMES, q.Prime := by
  intro q hq
  fin_cases hq <;> norm_num

/-- Every entry of the 64-bit small-prime table is prime. -/
theorem small_primes_u64_prime : ∀ q ∈ small_primes_u64, q.Prime := by
  intro q hq
  fin_cases hq <;> norm_num

/-- A prime is never rejected by a trial-division scan over a table of
primes. -/
theorem trialScan_prime_not_false {table : List Nat} {p : Nat}
    (hp : p.Prime) (htab : ∀ q ∈ table, q.Prime) :
    trialScan table p ≠ some false := by
  intro h
  obtain ⟨q, hq, hmod, hne⟩ := trialScan_some_false h
  have hqp : q.Prime := htab q hq
  have hdvd : q ∣ p := Nat.dvd_iff_mod_eq_zero.mpr hmod
  rcases (Nat.Prime.eq_one_or_self_of_dvd hp q hdvd) with h1 | h1
  · exact hqp.one_lt.ne' h1
  · exact hne h1.symm

/-! ## Miller-Rabin never rejects a prime: the core field argument -/

/-- Nat casts below the modulus are injective into `ZMod p`. -/
theorem natCast_zmod_inj {p x y : Nat} (hx : x < p) (hy : y < p)
    (h : ((x : Nat) : ZMod p) = ((y : Nat) : ZMod p)) : x = y := by
  have := congrArg ZMod.val h
  rwa [ZMod.val_cast_of_lt hx, ZMod.val_cast_of_lt hy] at this

/-- If some iterated squaring (between 1 and `k` steps) of `x` reaches
`p - 1` modulo `p`, the squaring loop reports it. -/
theorem sqLoop_hits (p : Nat) :
    ∀ k x, (∃ j, 1 ≤ j ∧ j ≤ k ∧ x ^ (2 ^ j) % p = p - 1) →
      sqLoop mulmod k x p = true := by
  intro k
  induction k with
  | zero => rintro x ⟨j, hj1, hj0, _⟩; omega
  | succ k ih =>
    rintro x ⟨j, hj1, hjk, hx⟩
    simp only [sqLoop]
    by_cases hhit : mulmod x x p = p - 1
    · simp [hhit]
    · rw [if_neg hhit]
      apply ih
      have hj2 : 2 ≤ j := by
        rcases Nat.lt_or_ge j 2 with h1 | h1
        · exfalso
          apply hhit
          have hj : j = 1 := by omega
          rw [hj] at hx
          rw [mulmod, show x * x = x ^ 2 ^ 1 by ring]
          exact hx
        · exact h1
      refine ⟨j - 1, by omega, by omega, ?_⟩
      rw [mulmod, ← Nat.pow_mod, show x * x = x ^ 2 by ring, ← pow_mul]
      have h2j : 2 * 2 ^ (j - 1) = 2 ^ j := by
        conv_rhs => rw [show j = (j - 1) + 1 by omega]
        rw [pow_succ]; ring
      rw [h2j]
      exact hx

/-- Core Miller-Rabin fact: for an odd prime `p` with `p - 1 = d * 2^s`
(`d` odd) and any base `a` not divisible by `p`, either `a^d ≡ 1`,
or `a^d ≡ -1`, or some of the first `s - 1` squarings of `a^d` hits `-1`. -/
theorem mr_core (p : Nat) (hp : p.Prime) (hp2 : 2 < p)
    (d s : Nat) (_hd : d % 2 = 1) (hds : d * 2 ^ s = p - 1)
    (a : Nat) (ha : a % p ≠ 0) :
    a ^ d % p = 1 ∨ a ^ d % p = p - 1 ∨ sqLoop mulmod (s - 1) (a ^ d % p) p = true := by
  haveI : Fact p.Prime := ⟨hp⟩
  have hp0 : 0 < p := hp.pos
  have hp1 : 1 < p := hp.one_lt
  set b : ZMod p := ((a : Nat) : ZMod p) with hb
  have hbne : b ≠ 0 := by
    rw [hb, Ne, ZMod.natCast_zmod_eq_zero_iff_dvd]
    intro hdvd
    exact ha (Nat.dvd_iff_mod_eq_zero.mp hdvd)
  have hPs : b ^ (d * 2 ^ s) = 1 := by
    rw [hds]; exact ZMod.pow_card_sub_one_eq_one hbne
  classical
  have hex : ∃ r, b ^ (d * 2 ^ r) = 1 := ⟨s, hPs⟩
  have hr0 : b ^ (d * 2 ^ Nat.find hex) = 1 := Nat.find_spec hex
  have hr0le : Nat.find hex ≤ s := Nat.find_min' hex hPs
  have hcast : ((a ^ d % p : Nat) : ZMod p) = b ^ d := by
    rw [ZMod.natCast_mod, Nat.cast_pow]
  have hlt : a ^ d % p < p := Nat.mod_lt _ hp0
  by_cases h00 : Nat.find hex = 0
  · left
    have hbd : b ^ d = 1 := by rw [← hr0, h00, pow_zero, mul_one]
    apply natCast_zmod_inj hlt hp1
    rw [hcast, hbd, Nat.cast_one]
  · have hr1 : 1 ≤ Nat.find hex := by omega
    have h2r : 2 ^ Nat.find hex = 2 ^ (Nat.find hex - 1) * 2 := by
      conv_lhs => rw [show Nat.find hex = (Nat.find hex - 1) + 1 by omega]
      rw [pow_succ]
    have hc2 : b ^ (d * 2 ^ (Nat.find hex - 1)) * b ^ (d * 2 ^ (Nat.find hex - 1)) = 1 := by
      rw [← pow_add]
      have harg : d * 2 ^ (Nat.find hex - 1) + d * 2 ^ (Nat.find hex - 1) = d * 2 ^ Nat.find hex := by
        rw [h2r]; ring
      rw [harg, hr0]
    have hcne : b ^ (d * 2 ^ (Nat.find hex - 1)) ≠ 1 := Nat.find_min hex (by omega)
    have hcm1 : b ^ (d * 2 ^ (Nat.find hex - 1)) = -1 := by
      rcases mul_self_eq_one_iff.mp hc2 with h | h
      · exact absurd h hcne
      · exact h
    have hpm1 : ((p - 1 : Nat) : ZMod p) = -1 := by
      rw [Nat.cast_sub (by omega), ZMod.natCast_self, Nat.cast_one]
      ring
    by_cases h10 : Nat.find hex - 1 = 0
    · right; left
      have hbd : b ^ d = -1 := by rw [← hcm1, h10, pow_zero, mul_one]
      apply natCast_zmod_inj hlt (show p - 1 < p by omega)
      rw [hcast, hbd, hpm1]
    · right; right
      apply sqLoop_hits
      refine ⟨Nat.find hex - 1, by omega, by omega, ?_⟩
      apply natCast_zmod_inj (Nat.mod_lt _ hp0) (show p - 1 < p by omega)
      rw [ZMod.natCast_mod, Nat.cast_pow, hcast, ← pow_mul, hcm1, hpm1]

/-! ## Miller-Rabin rounds never reject a prime -/

/-- Reduction into `[2, m]` performed by the tail of `random_base`. -/
theorem mod_add_two_range (a m : Nat) (h : 2 < m) :
    2 ≤ a % (m - 1) + 2 ∧ a % (m - 1) + 2 ≤ m := by
  have := Nat.mod_lt a (show 0 < m - 1 by omega)
  omega

/-- Whatever the engine yields, `random_base` lands in `[2, limit]`. -/
theorem random_base_range (g : RngStream) (limit pos : Nat) (h : 2 < limit) :
    2 ≤ (random_base g limit pos).1 ∧ (random_base g limit pos).1 ≤ limit := by
  rw [random_base, if_neg (by omega)]
  exact mod_add_two_range _ _ h

/-- For an odd prime that reached the Miller-Rabin stage, every round
passes, whatever bases the engine produces. -/
theorem mrRounds_true (p : Nat) (hp : p.Prime) (h7 : 5 ≤ p)
    (d s : Nat) (hd : d % 2 = 1) (hds : d * 2 ^ s = p - 1) (g : RngStream) :
    ∀ t pos, (mrRounds g p d s t pos).1 = true := by
  intro t
  induction t with
  | zero => intro pos; rfl
  | succ t ih =>
    intro pos
    have hrange := random_base_range g (p - 2) pos (by omega)
    set a := (random_base g (p - 2) pos).1 with ha
    have hap : a % p ≠ 0 := by
      rw [Nat.mod_eq_of_lt (by omega)]
      omega
    have hx : powmod a d p = a ^ d % p := powmod_eq a d p (by omega)
    rcases mr_core p hp (by omega) d s hd hds a hap with hone | hm1 | hsq
    · simp only [mrRounds]
      rw [← ha, hx, if_pos (Or.inl hone)]
      exact ih _
    · simp only [mrRounds]
      rw [← ha, hx, if_pos (Or.inr hm1)]
      exact ih _
    · simp only [mrRounds]
      rw [← ha, hx]
      by_cases hfirst : a ^ d % p = 1 ∨ a ^ d % p = p - 1
      · rw [if_pos hfirst]; exact ih _
      · rw [if_neg hfirst, if_pos hsq]
        exact ih _

/-- `miller_rabin` returns `true` on every prime, for every round count and
every state of the random engine: the probabilistic test's errors are
one-sided. -/
theorem miller_rabin_prime_true (p : Nat) (hp : p.Prime) (rounds : Nat)
    (g : RngStream) (pos : Nat) : (miller_rabin p rounds g pos).1 = true := by
  rw [miller_rabin, if_neg (by have := hp.two_le; omega)]
  cases hts : trialScan SMALL_PRIMES p with
  | some b =>
    cases b with
    | true => rfl
    | false => exact absurd hts (trialScan_prime_not_false hp SMALL_PRIMES_prime)
  | none =>
    have hfacts := trialScan_none hts
    have h2 := hfacts 2 (by rw [SMALL_PRIMES]; simp)
    have h3 := hfacts 3 (by rw [SMALL_PRIMES]; simp)
    have h5 := hfacts 5 (by rw [SMALL_PRIMES]; simp)
    have hp2 := hp.two_le
    have h7 : 5 ≤ p := by
      rcases h2 with ⟨hne2, hmod2⟩
      rcases h3 with ⟨hne3, _⟩
      omega
    have hd0 : p - 1 ≠ 0 := by omega
    have hdlt : p - 1 < 2 ^ p :=
      lt_of_lt_of_le (Nat.lt_two_pow (p - 1)) (Nat.pow_le_pow_right (by norm_num) (by omega))
    obtain ⟨hodd, _, heq⟩ := decompAux_spec p (p - 1) 0 hd0 hdlt
    rw [Nat.sub_zero] at heq
    exact mrRounds_true p hp h7 _ _ hodd heq g rounds pos

/-- `is_prime` returns `true` on every prime, for every state of the
random engine. -/
theorem is_prime_prime_true (p : Nat) (hp : p.Prime) (g : RngStream)
    (pos : Nat) : (is_prime p g pos).1 = true := by
  rw [is_prime, if_neg (by have := hp.two_le; omega)]
  cases hts : trialScan SMALL_PRIMES p with
  | some b =>
    cases b with
    | true => rfl
    | false => exact absurd hts (trialScan_prime_not_false hp SMALL_PRIMES_prime)
  | none => exact miller_rabin_prime_true p hp 32 g pos

/-! ## A certified prime above `2^63`

`10232178353385766913 = 71 * 2^57 + 1` is prime, by a Lucas certificate
with generator 3; the huge powers in `ZMod p` are evaluated through the
verified `powmod`. -/

theorem powmod_castZ (b e m : Nat) (hm : 1 ≤ m) :
    ((powmod b e m : Nat) : ZMod m) = ((b : Nat) : ZMod m) ^ e := by
  rw [powmod_eq b e m hm, ZMod.natCast_mod, Nat.cast_pow]

theorem powmod_lt (b e m : Nat) (hm : 1 ≤ m) : powmod b e m < m := by
  rw [powmod_eq b e m hm]
  exact Nat.mod_lt _ (by omega)

/-- A power in `ZMod m` is not 1 when the verified `powmod` value is not 1. -/
theorem powmod_ne_one_castZ (b e m : Nat) (hm : 1 < m)
    (h : powmod b e m ≠ 1) : ((b : Nat) : ZMod m) ^ e ≠ 1 := by
  intro hcontra
  apply h
  have hc := powmod_castZ b e m (by omega)
  rw [hcontra] at hc
  have h1 : ((1 : Nat) : ZMod m) = (1 : ZMod m) := Nat.cast_one
  exact natCast_zmod_inj (powmod_lt b e m (by omega)) hm (by rw [hc, h1])

theorem prime_10232178353385766913 : Nat.Prime 10232178353385766913 := by
  have h71 : Nat.Prime 71 := by norm_num
  have hm1 : (1 : Nat) ≤ 10232178353385766913 := by norm_num
  apply lucas_primality 10232178353385766913 ((3 : Nat) : ZMod 10232178353385766913)
  · have heval : powmod 3 (10232178353385766913 - 1) 10232178353385766913 = 1 := by decide
    have hc := powmod_castZ 3 (10232178353385766913 - 1) 10232178353385766913 hm1
    rw [heval, Nat.cast_one] at hc
    exact hc.symm
  · intro q hq hdvd
    have hsplit : 10232178353385766913 - 1 = 2 ^ 57 * 71 := by norm_num
    have hq2 : q = 2 ∨ q = 71 := by
      rw [hsplit] at hdvd
      rcases (Nat.Prime.dvd_mul hq).mp hdvd with h | h
      · exact Or.inl ((Nat.prime_dvd_prime_iff_eq hq Nat.prime_two).mp (hq.dvd_of_dvd_pow h))
      · exact Or.inr ((Nat.prime_dvd_prime_iff_eq hq h71).mp h)
    rcases hq2 with rfl | rfl
    · have heval : powmod 3 ((10232178353385766913 - 1) / 2) 10232178353385766913 =
          10232178353385766912 := by decide
      exact powmod_ne_one_castZ 3 _ _ (by norm_num) (by rw [heval]; norm_num)
    · have heval : powmod 3 ((10232178353385766913 - 1) / 71) 10232178353385766913 =
          9100173560718728676 := by decide
      exact powmod_ne_one_castZ 3 _ _ (by norm_num) (by rw [heval]; norm_num)

/-! ## 64-bit candidate generation: invariants -/

theorem U64MAX_val : U64MAX = 18446744073709551615 := by norm_num [U64MAX]

theorem U64MOD_val : U64MOD = 18446744073709551616 := by norm_num [U64MOD]

/-- Any `is_prime_u64` variant rejects even numbers above 2 (first table
entry). -/
theorem is_prime_u64_with_even (mm : Nat → Nat → Nat → Nat) (n : Nat)
    (h2 : 2 < n) (he : n % 2 = 0) : is_prime_u64_with mm n = false := by
  rw [is_prime_u64_with, if_neg (by omega)]
  have hscan : trialScan small_primes_u64 n = some false := by
    rw [small_primes_u64, trialScan, if_neg (by omega), if_pos he]
  rw [hscan]

/-- Any `is_prime_u64` variant rejects 0 and 1. -/
theorem is_prime_u64_with_lt_two (mm : Nat → Nat → Nat → Nat) (n : Nat)
    (h : n < 2) : is_prime_u64_with mm n = false := by
  rw [is_prime_u64_with, if_pos h]

/-- Once `count` values are collected the loop returns immediately,
whatever the fuel. -/
theorem genLoopU64_done (count : Nat) (fuel n : Nat) (acc : List Nat)
    (h : count ≤ acc.length) : genLoopU64 count fuel n acc = acc := by
  cases fuel with
  | zero => rfl
  | succ f => rw [genLoopU64, if_neg (by omega)]

/-- Collected values persist through the loop. -/
theorem genLoopU64_acc_mem (count : Nat) :
    ∀ fuel n acc x, x ∈ acc → x ∈ genLoopU64 count fuel n acc := by
  intro fuel
  induction fuel with
  | zero => intro n acc x hx; exact hx
  | succ f ih =>
    intro n acc x hx
    rw [genLoopU64]
    by_cases hcnt : acc.length < count
    · rw [if_pos hcnt]
      have hx' : x ∈ (if is_prime_u64 n then acc ++ [n] else acc) := by
        by_cases hp : is_prime_u64 n
        · rw [if_pos hp]; exact List.mem_append_left _ hx
        · rw [if_neg hp]; exact hx
      by_cases hbrk : U64MAX - 2 ≤ n
      · rw [if_pos hbrk]; exact hx'
      · rw [if_neg hbrk]; exact ih _ _ x hx'
    · rw [if_neg hcnt]; exact hx

/-- Main safety invariant of the 64-bit collection loop: starting from an
odd candidate `n ≤ 2^64 - 3` with a sorted accumulator lying below `n`, the
result is sorted, contains the accumulator, adds only candidates in
`[n, 2^64 - 3]` that pass `is_prime_u64`, and never exceeds
`max count acc.length` in length. -/
theorem genLoopU64_inv (count : Nat) :
    ∀ fuel n acc,
      n % 2 = 1 → 3 ≤ n → n ≤ U64MAX - 2 →
      List.Sorted (· < ·) acc → (∀ x ∈ acc, x < n) →
      List.Sorted (· < ·) (genLoopU64 count fuel n acc) ∧
      (∀ x ∈ genLoopU64 count fuel n acc,
        x ∈ acc ∨ (n ≤ x ∧ x ≤ U64MAX - 2 ∧ is_prime_u64 x = true)) ∧
      (genLoopU64 count fuel n acc).length ≤ max count acc.length := by
  intro fuel
  induction fuel with
  | zero =>
    intro n acc _ _ _ hsorted _
    exact ⟨hsorted, fun x hx => Or.inl hx, by simp [genLoopU64]⟩
  | succ f ih =>
    intro n acc hodd h3 hle hsorted hbelow
    have hM := U64MAX_val
    have hMOD := U64MOD_val
    rw [genLoopU64]
    by_cases hcnt : acc.length < count
    · rw [if_pos hcnt]
      have hsorted' : List.Sorted (· < ·) (if is_prime_u64 n then acc ++ [n] else acc) := by
        by_cases hp : is_prime_u64 n
        · rw [if_pos hp]
          exact List.pairwise_append.mpr ⟨hsorted, List.sorted_singleton n,
            fun a ha b hb => by rw [List.mem_singleton] at hb; subst hb; exact hbelow a ha⟩
        · rw [if_neg hp]; exact hsorted
      have hmem' : ∀ x ∈ (if is_prime_u64 n then acc ++ [n] else acc),
          x ∈ acc ∨ (n ≤ x ∧ x ≤ U64MAX - 2 ∧ is_prime_u64 x = true) := by
        intro x hx
        by_cases hp : is_prime_u64 n
        · rw [if_pos hp] at hx
          rcases List.mem_append.mp hx with hx' | hx'
          · exact Or.inl hx'
          · rw [List.mem_singleton] at hx'
            subst hx'
            exact Or.inr ⟨le_refl x, hle, hp⟩
        · rw [if_neg hp] at hx; exact Or.inl hx
      have hlen' : (if is_prime_u64 n then acc ++ [n] else acc).length ≤ count := by
        by_cases hp : is_prime_u64 n
        · rw [if_pos hp]; simp; omega
        · rw [if_neg hp]; omega
      by_cases hbrk : U64MAX - 2 ≤ n
      · rw [if_pos hbrk]
        exact ⟨hsorted', hmem', by omega⟩
      · rw [if_neg hbrk]
        have hodd2 : n ≤ U64MAX - 4 := by omega
        have hmodid : (n + 2) % U64MOD = n + 2 := Nat.mod_eq_of_lt (by omega)
        rw [hmodid]
        have hbelow' : ∀ x ∈ (if is_prime_u64 n then acc ++ [n] else acc), x < n + 2 := by
          intro x hx
          by_cases hp : is_prime_u64 n
          · rw [if_pos hp] at hx
            rcases List.mem_append.mp hx with hx' | hx'
            · exact lt_trans (hbelow x hx') (by omega)
            · rw [List.mem_singleton] at hx'; omega
          · rw [if_neg hp] at hx; exact lt_trans (hbelow x hx) (by omega)
        obtain ⟨ihs, ihm, ihl⟩ := ih (n + 2) (if is_prime_u64 n then acc ++ [n] else acc)
          (by omega) (by omega) (by omega) hsorted' hbelow'
        refine ⟨ihs, ?_, by omega⟩
        intro x hx
        rcases ihm x hx with hx' | hx'
        · rcases hmem' x hx' with h | h
          · exact Or.inl h
          · exact Or.inr h
        · exact Or.inr ⟨by omega, hx'.2.1, hx'.2.2⟩
    · rw [if_neg hcnt]
      exact ⟨hsorted, fun x hx => Or.inl hx, by omega⟩

/-- Exhaustion: if the loop (run with enough fuel) returns fewer than
`count` values, it scanned every candidate up to the ceiling, so every
value in `[n, 2^64 - 3]` that passes `is_prime_u64` is in the result. -/
theorem genLoopU64_exhaust (count : Nat) :
    ∀ fuel n acc,
      n % 2 = 1 → 3 ≤ n → n ≤ U64MAX - 2 → U64MAX - n ≤ fuel →
      (genLoopU64 count fuel n acc).length < count →
      ∀ m, n ≤ m → m ≤ U64MAX - 2 → is_prime_u64 m = true →
        m ∈ genLoopU64 count fuel n acc := by
  intro fuel
  induction fuel with
  | zero =>
    intro n acc _ _ hle hfuel _ m _ _ _
    have hM := U64MAX_val
    omega
  | succ f ih =>
    intro n acc hodd h3 hle hfuel hshort m hm1 hm2 hmp
    have hM := U64MAX_val
    have hMOD := U64MOD_val
    rw [genLoopU64] at hshort ⊢
    by_cases hcnt : acc.length < count
    · rw [if_pos hcnt] at hshort ⊢
      by_cases hbrk : U64MAX - 2 ≤ n
      · rw [if_pos hbrk] at hshort ⊢
        have hmn : m = n := by omega
        subst hmn
        rw [if_pos hmp]
        exact List.mem_append_right _ (by simp)
      · rw [if_neg hbrk] at hshort ⊢
        have hmodid : (n + 2) % U64MOD = n + 2 := Nat.mod_eq_of_lt (by omega)
        rw [hmodid] at hshort ⊢
        by_cases hmn : m = n
        · subst hmn
          apply genLoopU64_acc_mem
          rw [if_pos hmp]
          exact List.mem_append_right _ (by simp)
        · have hmodd : m % 2 = 1 := by
            by_contra hme
            have : is_prime_u64 m = false :=
              is_prime_u64_with_even mul_mod m (by omega) (by omega)
            rw [this] at hmp
            exact Bool.false_ne_true hmp
          have hm3 : n + 2 ≤ m := by omega
          exact ih (n + 2) _ (by omega) (by omega) (by omega) (by omega) hshort m hm3 hm2 hmp
    · rw [if_neg hcnt] at hshort
      omega

/-- Description of `next_candidate_u64` for inputs clear of the wrap zone:
it is 2 (iff the start is at most 2) or an odd non-multiple of 3 in
`[max 3 start, 2^64 - 3]`. -/
theorem next_candidate_u64_spec (start : Nat) (h : start ≤ U64MAX - 2) :
    (next_candidate_u64 start = 2 ∧ start ≤ 2) ∨
    (next_candidate_u64 start % 2 = 1 ∧ next_candidate_u64 start % 3 ≠ 0 ∧
     3 ≤ next_candidate_u64 start ∧ next_candidate_u64 start ≤ U64MAX - 2 ∧
     start ≤ next_candidate_u64 start) := by
  have hM := U64MAX_val
  have hMOD := U64MOD_val
  rw [next_candidate_u64]
  by_cases h2 : start ≤ 2
  · rw [if_pos h2]; exact Or.inl ⟨rfl, h2⟩
  · rw [if_neg h2]
    right
    have hstart3 : 3 ≤ start := by omega
    -- the odd seed of the loop
    set n1 : Nat := if start % 2 = 0 then (start + 1) % U64MOD else start with hn1
    have hmodid1 : (start + 1) % U64MOD = start + 1 := Nat.mod_eq_of_lt (by omega)
    have hn1odd : n1 % 2 = 1 := by
      rw [hn1]
      by_cases he : start % 2 = 0
      · rw [if_pos he, hmodid1]; omega
      · rw [if_neg he]; omega
    have hn1ge : start ≤ n1 := by
      rw [hn1]
      by_cases he : start % 2 = 0
      · rw [if_pos he, hmodid1]; omega
      · rw [if_neg he]
    have hn1le : n1 ≤ U64MAX - 2 := by
      rw [hn1]
      by_cases he : start % 2 = 0
      · rw [if_pos he, hmodid1]; omega
      · rw [if_neg he]; omega
    rw [nextCanU64Loop]
    by_cases h3 : n1 % 3 = 0
    · rw [if_pos h3]
      have hne : n1 ≠ U64MAX - 2 := by
        intro hcontra
        rw [hcontra] at h3
        rw [hM] at h3
        norm_num at h3
      have hn1lt : n1 + 2 < U64MOD := by omega
      have hmodid : (n1 + 2) % U64MOD = n1 + 2 := Nat.mod_eq_of_lt hn1lt
      rw [hmodid, nextCanU64Loop, if_neg (by omega)]
      refine ⟨by omega, by omega, by omega, by omega, by omega⟩
    · rw [if_neg h3]
      exact ⟨hn1odd, h3, by omega, hn1le, hn1ge⟩

/-- `next_candidate_u64` is the identity on odd non-multiples of 3 above 3. -/
theorem next_candidate_u64_fix (m : Nat) (hodd : m % 2 = 1) (h3 : 3 ≤ m)
    (hm3 : m % 3 ≠ 0) : next_candidate_u64 m = m := by
  rw [next_candidate_u64, if_neg (by omega), if_neg (by omega), nextCanU64Loop, if_neg hm3]

/-! ## Unbounded candidate generation: invariants -/

/-- Fuel 3 always lets the big wheel loop exit through its `return n`:
from any value, at most two consecutive probes are divisible by 3 or 5. -/
theorem nextCanBigLoop_spec (n : Nat) :
    nextCanBigLoop 3 n % 3 ≠ 0 ∧ nextCanBigLoop 3 n % 5 ≠ 0 ∧
    nextCanBigLoop 3 n % 2 = n % 2 ∧ n ≤ nextCanBigLoop 3 n ∧
    nextCanBigLoop 3 n ≤ n + 4 := by
  rw [nextCanBigLoop]
  by_cases h1 : n % 3 ≠ 0 ∧ n % 5 ≠ 0
  · rw [if_pos h1]
    exact ⟨h1.1, h1.2, rfl, le_refl n, by omega⟩
  · rw [if_neg h1, nextCanBigLoop]
    by_cases h2 : (n + 2) % 3 ≠ 0 ∧ (n + 2) % 5 ≠ 0
    · rw [if_pos h2]
      exact ⟨h2.1, h2.2, by omega, by omega, by omega⟩
    · rw [if_neg h2, nextCanBigLoop]
      have h3 : (n + 4) % 3 ≠ 0 ∧ (n + 4) % 5 ≠ 0 := by omega
      rw [if_pos h3]
      exact ⟨h3.1, h3.2, by omega, by omega, by omega⟩

/-- Description of the big `next_candidate`: it is 2 (iff the start is at
most 2) or an odd value coprime to 15, at least 3 and at least the start. -/
theorem next_candidate_spec (n : Int) :
    (next_candidate n = 2 ∧ n ≤ 2) ∨
    (next_candidate n % 2 = 1 ∧ next_candidate n % 3 ≠ 0 ∧
     next_candidate n % 5 ≠ 0 ∧ 3 ≤ next_candidate n ∧
     n ≤ (next_candidate n : Int)) := by
  rw [next_candidate]
  by_cases h2 : n ≤ 2
  · rw [if_pos h2]; exact Or.inl ⟨rfl, h2⟩
  · rw [if_neg h2]
    right
    push_neg at h2
    have htn : 3 ≤ n.toNat := by omega
    by_cases he : n.toNat % 2 = 0
    · rw [if_pos he]
      obtain ⟨ha, hb, hc, hd, _⟩ := nextCanBigLoop_spec (n.toNat + 1)
      exact ⟨by omega, ha, hb, by omega, by omega⟩
    · rw [if_neg he]
      obtain ⟨ha, hb, hc, hd, _⟩ := nextCanBigLoop_spec n.toNat
      exact ⟨by omega, ha, hb, by omega, by omega⟩

/-- The big `next_candidate` is the identity on odd values at least 3 that
are coprime to 15. -/
theorem next_candidate_fix (m : Nat) (hodd : m % 2 = 1) (h3 : 3 ≤ m)
    (h3m : m % 3 ≠ 0) (h5m : m % 5 ≠ 0) : next_candidate (m : Int) = m := by
  rw [next_candidate, if_neg (by exact_mod_cast by omega), Int.toNat_natCast,
    if_neg (by omega), nextCanBigLoop, if_pos ⟨h3m, h5m⟩]

/-- Values skipped by the big wheel loop are divisible by 3 or 5; primes
among them are 3 or 5 themselves. -/
theorem nextCanBigLoop_skips : ∀ f v p, p.Prime → v % 2 = 1 → 3 ≤ v →
    v ≤ p → p < nextCanBigLoop f v → p = 3 ∨ p = 5 := by
  intro f
  induction f with
  | zero =>
    intro v p _ _ _ hvp hlt
    rw [nextCanBigLoop] at hlt
    omega
  | succ f ih =>
    intro v p hp hvodd h3 hvp hlt
    rw [nextCanBigLoop] at hlt
    by_cases hgood : v % 3 ≠ 0 ∧ v % 5 ≠ 0
    · rw [if_pos hgood] at hlt; omega
    · rw [if_neg hgood] at hlt
      by_cases hpv : p = v
      · subst hpv
        rcases (by omega : p % 3 = 0 ∨ p % 5 = 0) with h | h
        · left
          have hdvd : (3 : Nat) ∣ p := Nat.dvd_iff_mod_eq_zero.mpr h
          rcases hp.eq_one_or_self_of_dvd 3 hdvd with h1 | h1
          · omega
          · omega
        · right
          have hdvd : (5 : Nat) ∣ p := Nat.dvd_iff_mod_eq_zero.mpr h
          rcases hp.eq_one_or_self_of_dvd 5 hdvd with h1 | h1
          · omega
          · omega
      · have hpv2 : v + 2 ≤ p := by
          rcases Nat.lt_or_ge p (v + 2) with hcase | hcase
          · exfalso
            have hpv1 : p = v + 1 := by omega
            have heven : p % 2 = 0 := by omega
            have hdvd : (2 : Nat) ∣ p := Nat.dvd_iff_mod_eq_zero.mpr heven
            rcases hp.eq_one_or_self_of_dvd 2 hdvd with h1 | h1
            · omega
            · omega
          · exact hcase
        exact ih (v + 2) p hp (by omega) (by omega) hpv2 hlt

/-- Once `count` values are collected the big loop returns immediately. -/
theorem genLoopBig_done (g : RngStream) (count fuel n : Nat) (acc : List Nat)
    (pos : Nat) (h : count ≤ acc.length) : genLoopBig g count fuel n acc pos = acc := by
  cases fuel with
  | zero => rfl
  | succ f => rw [genLoopBig, if_neg (by omega)]

/-- One collecting step of the big loop. -/
theorem genLoopBig_succ (g : RngStream) (count f n : Nat) (acc : List Nat)
    (pos : Nat) (h : acc.length < count) :
    genLoopBig g count (f + 1) n acc pos =
      genLoopBig g count f (n + 2)
        (if (is_prime n g pos).1 then acc ++ [n] else acc) (is_prime n g pos).2 := by
  rw [genLoopBig, if_pos h]

/-- Reduce a conditional with a true Boolean condition. -/
theorem if_push_true {α : Sort _} {c : Bool} (x y : α) (h : c = true) :
    (if c then x else y) = x := by rw [h]; exact if_pos rfl

/-- Reduce a conditional with a false Boolean condition. -/
theorem if_push_false {α : Sort _} {c : Bool} (x y : α) (h : c = false) :
    (if c then x else y) = y := by rw [h]; exact if_neg (by simp)

/-- Safety invariant of the big collection loop: sortedness, provenance of
every element (old accumulator, or a candidate at least `n` that passed the
primality check at some engine position), and the length cap. -/
theorem genLoopBig_inv (g : RngStream) (count : Nat) :
    ∀ fuel n acc pos,
      List.Sorted (· < ·) acc → (∀ x ∈ acc, x < n) →
      List.Sorted (· < ·) (genLoopBig g count fuel n acc pos) ∧
      (∀ x ∈ genLoopBig g count fuel n acc pos,
        x ∈ acc ∨ (n ≤ x ∧ ∃ q, (is_prime x g q).1 = true)) ∧
      (genLoopBig g count fuel n acc pos).length ≤ max count acc.length := by
  intro fuel
  induction fuel with
  | zero =>
    intro n acc pos _ _
    exact ⟨by assumption, fun x hx => Or.inl hx, by simp [genLoopBig]⟩
  | succ f ih =>
    intro n acc pos hsorted hbelow
    by_cases hcnt : acc.length < count
    · rw [genLoopBig_succ g count f n acc pos hcnt]
      have hsorted' : List.Sorted (· < ·)
          (if (is_prime n g pos).1 then acc ++ [n] else acc) := by
        by_cases hp : (is_prime n g pos).1
        · rw [if_push_true _ _ hp]
          exact List.pairwise_append.mpr ⟨hsorted, List.sorted_singleton n,
            fun a ha b hb => by rw [List.mem_singleton] at hb; subst hb; exact hbelow a ha⟩
        · rw [if_push_false _ _ (by simpa using hp)]; exact hsorted
      have hbelow' : ∀ x ∈ (if (is_prime n g pos).1 then acc ++ [n] else acc), x < n + 2 := by
        intro x hx
        by_cases hp : (is_prime n g pos).1
        · rw [if_push_true _ _ hp] at hx
          rcases List.mem_append.mp hx with hx' | hx'
          · exact lt_trans (hbelow x hx') (by omega)
          · rw [List.mem_singleton] at hx'; omega
        · rw [if_push_false _ _ (by simpa using hp)] at hx
          exact lt_trans (hbelow x hx) (by omega)
      have hmem' : ∀ x ∈ (if (is_prime n g pos).1 then acc ++ [n] else acc),
          x ∈ acc ∨ (n ≤ x ∧ ∃ q, (is_prime x g q).1 = true) := by
        intro x hx
        by_cases hp : (is_prime n g pos).1
        · rw [if_push_true _ _ hp] at hx
          rcases List.mem_append.mp hx with hx' | hx'
          · exact Or.inl hx'
          · rw [List.mem_singleton] at hx'
            subst hx'
            exact Or.inr ⟨le_refl x, pos, hp⟩
        · rw [if_push_false _ _ (by simpa using hp)] at hx
          exact Or.inl hx
      have hlen' : (if (is_prime n g pos).1 then acc ++ [n] else acc).length ≤ count := by
        by_cases hp : (is_prime n g pos).1
        · rw [if_push_true _ _ hp]; simp; omega
        · rw [if_push_false _ _ (by simpa using hp)]; omega
      obtain ⟨ihs, ihm, ihl⟩ := ih (n + 2)
        (if (is_prime n g pos).1 then acc ++ [n] else acc) (is_prime n g pos).2
        hsorted' hbelow'
      refine ⟨ihs, ?_, by omega⟩
      intro x hx
      rcases ihm x hx with hx' | hx'
      · rcases hmem' x hx' with h | h
        · exact Or.inl h
        · exact Or.inr h
      · exact Or.inr ⟨by omega, hx'.2⟩
    · rw [genLoopBig_done g count _ n acc pos (by omega)]
      exact ⟨hsorted, fun x hx => Or.inl hx, by omega⟩

/-- With enough fuel the big loop collects exactly `count` values: between
any odd candidate and the next prime (Bertrand) the loop can only add
values, and at the prime itself the check is guaranteed to succeed. -/
theorem genLoopBig_count (g : RngStream) (count : Nat) :
    ∀ k n acc pos, n % 2 = 1 → 3 ≤ n →
      acc.length ≤ count → count ≤ acc.length + k →
      ∃ f0, ∀ fuel, f0 ≤ fuel →
        (genLoopBig g count fuel n acc pos).length = count := by
  intro k
  induction k with
  | zero =>
    intro n acc pos _ _ hle hge
    refine ⟨0, fun fuel _ => ?_⟩
    rw [genLoopBig_done g count fuel n acc pos (by omega)]
    omega
  | succ k ih =>
    intro n acc pos hodd h3 hle hge
    by_cases hdone : count ≤ acc.length
    · refine ⟨0, fun fuel _ => ?_⟩
      rw [genLoopBig_done g count fuel n acc pos hdone]
      omega
    · push_neg at hdone
      obtain ⟨p, hp, hnp, _⟩ := Nat.exists_prime_lt_and_le_two_mul n (by omega)
      have hpodd : p % 2 = 1 := by
        rcases hp.eq_two_or_odd with h | h
        · omega
        · exact h
      obtain ⟨j0, hj0⟩ : ∃ j, p - n = 2 * j := ⟨(p - n) / 2, by omega⟩
      have inner : ∀ j n' acc' pos', n' % 2 = 1 → 3 ≤ n' → n' ≤ p →
          p - n' = 2 * j → acc'.length < count → count ≤ acc'.length + (k + 1) →
          ∃ f0, ∀ fuel, f0 ≤ fuel →
            (genLoopBig g count fuel n' acc' pos').length = count := by
        intro j
        induction j with
        | zero =>
          intro n' acc' pos' _ _ hlep hdist hlt' hge'
          have hn'p : n' = p := by omega
          subst hn'p
          have hprime : (is_prime n' g pos').1 = true := is_prime_prime_true n' hp g pos'
          by_cases hfill : acc'.length + 1 = count
          · refine ⟨1, fun fuel hf => ?_⟩
            obtain ⟨f, rfl⟩ : ∃ f, fuel = f + 1 := ⟨fuel - 1, by omega⟩
            rw [genLoopBig_succ g count f n' acc' pos' hlt', if_push_true _ _ hprime,
              genLoopBig_done g count f _ _ _ (by simp; omega)]
            simp
            omega
          · obtain ⟨f0, hf0⟩ := ih (n' + 2) (acc' ++ [n']) (is_prime n' g pos').2
              (by omega) (by omega) (by simp; omega) (by simp; omega)
            refine ⟨f0 + 1, fun fuel hf => ?_⟩
            obtain ⟨f, rfl⟩ : ∃ f, fuel = f + 1 := ⟨fuel - 1, by omega⟩
            rw [genLoopBig_succ g count f n' acc' pos' hlt', if_push_true _ _ hprime]
            exact hf0 f (by omega)
        | succ j ihj =>
          intro n' acc' pos' hodd' h3' hlep hdist hlt' hge'
          cases hq : (is_prime n' g pos').1 with
          | true =>
            by_cases hfill : acc'.length + 1 = count
            · refine ⟨1, fun fuel hf => ?_⟩
              obtain ⟨f, rfl⟩ : ∃ f, fuel = f + 1 := ⟨fuel - 1, by omega⟩
              rw [genLoopBig_succ g count f n' acc' pos' hlt', if_push_true _ _ hq,
                genLoopBig_done g count f _ _ _ (by simp; omega)]
              simp
              omega
            · obtain ⟨f0, hf0⟩ := ih (n' + 2) (acc' ++ [n']) (is_prime n' g pos').2
                (by omega) (by omega) (by simp; omega) (by simp; omega)
              refine ⟨f0 + 1, fun fuel hf => ?_⟩
              obtain ⟨f, rfl⟩ : ∃ f, fuel = f + 1 := ⟨fuel - 1, by omega⟩
              rw [genLoopBig_succ g count f n' acc' pos' hlt', if_push_true _ _ hq]
              exact hf0 f (by omega)
          | false =>
            obtain ⟨f0, hf0⟩ := ihj (n' + 2) acc' (is_prime n' g pos').2
              (by omega) (by omega) (by omega) (by omega) hlt' hge'
            refine ⟨f0 + 1, fun fuel hf => ?_⟩
            obtain ⟨f, rfl⟩ : ∃ f, fuel = f + 1 := ⟨fuel - 1, by omega⟩
            rw [genLoopBig_succ g count f n' acc' pos' hlt', if_push_false _ _ hq]
            exact hf0 f (by omega)
      exact inner j0 n acc pos hodd h3 (by omega) hj0 hdone hge

/-! ## Remaining helper lemmas for the claims about `next_candidate_u64` -/

/-- Primes inside the skip range of the 64-bit wheel loop are 3. -/
theorem nextCanU64Loop_skips (v p : Nat) (hv : v ≤ U64MAX) (hvodd : v % 2 = 1)
    (h3 : 3 ≤ v) (hp : p.Prime) (h1 : v ≤ p) (h2 : p < nextCanU64Loop 3 v) :
    p = 3 := by
  have hM := U64MAX_val
  have hMOD := U64MOD_val
  rw [nextCanU64Loop] at h2
  by_cases hv3 : v % 3 = 0
  · rw [if_pos hv3] at h2
    by_cases hw : v = U64MAX
    · subst hw
      have hmod : (U64MAX + 2) % U64MOD = 1 := by rw [hM, hMOD]
      rw [hmod, nextCanU64Loop, if_neg (by norm_num)] at h2
      have := hp.two_le
      omega
    · have hmodid : (v + 2) % U64MOD = v + 2 := Nat.mod_eq_of_lt (by omega)
      rw [hmodid, nextCanU64Loop, if_neg (by omega)] at h2
      by_cases hpv : p = v
      · subst hpv
        have hdvd : (3 : Nat) ∣ p := Nat.dvd_iff_mod_eq_zero.mpr hv3
        rcases hp.eq_one_or_self_of_dvd 3 hdvd with h | h
        · have := hp.one_lt; omega
        · omega
      · have hpv1 : p = v + 1 := by omega
        have heven : p % 2 = 0 := by omega
        have hdvd : (2 : Nat) ∣ p := Nat.dvd_iff_mod_eq_zero.mpr heven
        rcases hp.eq_one_or_self_of_dvd 2 hdvd with h | h
        · have := hp.one_lt; omega
        · omega
  · rw [if_neg hv3] at h2
    omega

/-- Primes inside the skip range of `next_candidate_u64` are 3. -/
theorem next_candidate_u64_skips (n p : Nat) (hn : n ≤ U64MAX) (hp : p.Prime)
    (h1 : n ≤ p) (h2 : p < next_candidate_u64 n) : p = 3 := by
  have hM := U64MAX_val
  have hMOD := U64MOD_val
  rw [next_candidate_u64] at h2
  by_cases hn2 : n ≤ 2
  · rw [if_pos hn2] at h2
    have := hp.two_le
    omega
  · rw [if_neg hn2] at h2
    by_cases he : n % 2 = 0
    · rw [if_pos he] at h2
      have hmodid : (n + 1) % U64MOD = n + 1 := Nat.mod_eq_of_lt (by omega)
      rw [hmodid] at h2
      by_cases hpn : p = n
      · subst hpn
        have hdvd : (2 : Nat) ∣ p := Nat.dvd_iff_mod_eq_zero.mpr he
        rcases hp.eq_one_or_self_of_dvd 2 hdvd with h | h
        · have := hp.one_lt; omega
        · omega
      · exact nextCanU64Loop_skips (n + 1) p (by omega) (by omega) (by omega) hp
          (by omega) h2
    · rw [if_neg he] at h2
      exact nextCanU64Loop_skips n p (by omega) (by omega) (by omega) hp h1 h2

/-- Primes inside the skip range of the big `next_candidate` are 3 or 5. -/
theorem next_candidate_skips (n : Int) (p : Nat) (hp : p.Prime)
    (h1 : n ≤ (p : Int)) (h2 : p < next_candidate n) : p = 3 ∨ p = 5 := by
  rw [next_candidate] at h2
  by_cases hn2 : n ≤ 2
  · rw [if_pos hn2] at h2
    have := hp.two_le
    omega
  · rw [if_neg hn2] at h2
    push_neg at hn2
    have htn : 3 ≤ n.toNat := by omega
    have htp : n.toNat ≤ p := by omega
    by_cases he : n.toNat % 2 = 0
    · rw [if_pos he] at h2
      by_cases hpn : p = n.toNat
      · exfalso
        have heven : p % 2 = 0 := by omega
        have hdvd : (2 : Nat) ∣ p := Nat.dvd_iff_mod_eq_zero.mpr heven
        rcases hp.eq_one_or_self_of_dvd 2 hdvd with h | h
        · have := hp.one_lt; omega
        · omega
      · exact nextCanBigLoop_skips 3 (n.toNat + 1) p hp (by omega) (by omega)
          (by omega) h2
    · rw [if_neg he] at h2
      exact nextCanBigLoop_skips 3 n.toNat p hp (by omega) (by omega) htp h2

/-! ## Claims -/

/-- C1: the claim that `is_prime_u64` (trial division plus Miller-Rabin
with the 7 fixed bases) is exact over the whole 64-bit range fails on the
MSVC `mul_mod` fallback branch of the code: the prime
`10232178353385766913 = 71 * 2^57 + 1`, which lies above `2^63`, is
reported composite there (the repeated-doubling loop overflows silently
for moduli above `2^63`), while the native wide-multiply branch correctly
reports it prime. -/
theorem c1_msvc_branch_inexact :
    Nat.Prime 10232178353385766913 ∧
    2 ^ 63 < 10232178353385766913 ∧
    is_prime_u64_msvc 10232178353385766913 = false ∧
    is_prime_u64 10232178353385766913 = true :=
  ⟨prime_10232178353385766913, by norm_num, by decide, by decide⟩

/-- C3: the MSVC repeated-doubling fallback of `mul_mod` is not bit-exact:
at `a = 2^63`, `b = 2`, `m = 2^64 - 1` it returns 0 (its doubling step
`base = base + base` wraps mod `2^64` and the guard `base < base - base`
is vacuous for unsigned values), while the exact 128-bit product reduction
of the native branch gives 1. -/
theorem c3_msvc_mul_mod_not_exact :
    mul_mod_msvc (2 ^ 63) 2 (2 ^ 64 - 1) = 0 ∧
    2 ^ 63 * 2 % (2 ^ 64 - 1) = 1 ∧
    mul_mod (2 ^ 63) 2 (2 ^ 64 - 1) = 1 :=
  ⟨by decide, by decide, by decide⟩

/-- C4 (counterexample): the wheel pre-filter discards the primes 3 and 5
themselves: `next_candidate_u64 3 = 5` skips the prime 3, and the big
`next_candidate 3 = 7` skips the primes 3 and 5. -/
theorem c4_counterexample :
    next_candidate_u64 3 = 5 ∧ Nat.Prime 3 ∧
    next_candidate (3 : Int) = 7 ∧ Nat.Prime 5 :=
  ⟨by decide, by norm_num, by decide, by norm_num⟩

/-- C4 (amended): apart from the primes 3 and 5 themselves (which the
divisibility pre-filter wrongly discards because they are not coprime to
the wheel), `next_candidate` never skips a prime: any prime `p` with
`n ≤ p < next_candidate(n)` equals 3 (64-bit domain, `n` in the `uint64_t`
range) or 3 or 5 (unbounded domain). -/
theorem c4_no_skipped_prime_amended :
    (∀ n p : Nat, n ≤ U64MAX → p.Prime → n ≤ p →
      p < next_candidate_u64 n → p = 3) ∧
    (∀ (n : Int) (p : Nat), p.Prime → n ≤ (p : Int) →
      p < next_candidate n → p = 3 ∨ p = 5) :=
  ⟨fun n p hn hp h1 h2 => next_candidate_u64_skips n p hn hp h1 h2,
   fun n p hp h1 h2 => next_candidate_skips n p hp h1 h2⟩

/-- C4 witness: concrete instantiation of the amended claim at the skipped
primes themselves. -/
theorem c4_witness :
    ((3 : Nat) ≤ U64MAX ∧ Nat.Prime 3 ∧ 3 < next_candidate_u64 3 ∧ 3 = 3) ∧
    (Nat.Prime 5 ∧ (5 : Nat) < next_candidate (5 : Int) ∧
      ((5 : Nat) = 3 ∨ (5 : Nat) = 5)) :=
  ⟨⟨by decide, by norm_num, by decide,
    c4_no_skipped_prime_amended.1 3 3 (by decide) (by norm_num) (le_refl 3) (by decide)⟩,
   ⟨by norm_num, by decide,
    c4_no_skipped_prime_amended.2 5 5 (by norm_num) (by norm_num) (by decide)⟩⟩

/-- C5: the overflow clamp does not prevent 64-bit wraparound. At
`start = 2^64 - 1` (the program's own default start), `next_candidate_u64`
executes `n += 2`, wraps to 1, and the generator then collects `count`
primes starting from 3 — a full-length result whose values all lie below
the start, instead of a short result with no wraparound. -/
theorem c5_wraparound_at_max_start :
    next_candidate_u64 (2 ^ 64 - 1) = 1 ∧
    generate_primes_u64 (2 ^ 64 - 1) 3 = [3, 5, 7] ∧
    (∀ x ∈ generate_primes_u64 (2 ^ 64 - 1) 3, x < 2 ^ 64 - 1) :=
  ⟨by decide, by decide, by decide⟩

/-- C6 (counterexample): the 64-bit `pow_mod` initializes `res = 1`
without the `1 % mod` normalization, so at `m = 1`, `exp = 0` it returns
1, while `base^exp mod 1 = 0`. -/
theorem c6_counterexample : pow_mod 5 0 1 = 1 ∧ 5 ^ 0 % 1 = 0 :=
  ⟨by decide, by decide⟩

/-- C6 (amended): the big `powmod` computes `base^exp mod m` for every
modulus `m ≥ 1`, every base and every exponent (in particular 0 for
`m = 1`, including `exp = 0`, via its `res = 1 % m` normalization); the
64-bit `pow_mod` (native-multiply branch) computes `a^d mod m` for every
`m ≥ 1` except when `m = 1` and `d = 0`, where its unnormalized `res = 1`
makes it return 1. -/
theorem c6_powmod_amended :
    (∀ b e m : Nat, 1 ≤ m → powmod b e m = b ^ e % m) ∧
    (∀ a d m : Nat, 1 ≤ m → d < 2 ^ 64 → (1 ≤ d ∨ 2 ≤ m) →
      pow_mod a d m = a ^ d % m) ∧
    (∀ a : Nat, pow_mod a 0 1 = 1) :=
  ⟨fun b e m hm => powmod_eq b e m hm,
   fun a d m hm hd h => pow_mod_eq a d m hm hd (by omega),
   fun _ => rfl⟩

/-- C6 witness: concrete instantiation of the amended claim. -/
theorem c6_witness :
    (1 : Nat) ≤ 7 ∧ powmod 3 20 7 = 3 ^ 20 % 7 ∧ pow_mod 3 20 7 = 3 ^ 20 % 7 :=
  ⟨by norm_num, c6_powmod_amended.1 3 20 7 (by norm_num),
   c6_powmod_amended.2.1 3 20 7 (by norm_num) (by norm_num) (Or.inl (by norm_num))⟩

/-- C7 (counterexample): at `n = 2^64 - 1` the 64-bit `next_candidate_u64`
wraps to 1, and a second application maps 1 to 2, so idempotence fails. -/
theorem c7_counterexample :
    next_candidate_u64 (next_candidate_u64 (2 ^ 64 - 1)) = 2 ∧
    next_candidate_u64 (2 ^ 64 - 1) = 1 :=
  ⟨by decide, by decide⟩

/-- C7 (amended): `next_candidate` is idempotent on its own output —
unconditionally in the unbounded domain, and on the wrap-free zone
`n ≤ 2^64 - 3` in the 64-bit domain. -/
theorem c7_idempotent_amended :
    (∀ n : Nat, n ≤ U64MAX - 2 →
      next_candidate_u64 (next_candidate_u64 n) = next_candidate_u64 n) ∧
    (∀ n : Int, next_candidate ((next_candidate n : Nat) : Int) = next_candidate n) := by
  constructor
  · intro n hn
    rcases next_candidate_u64_spec n hn with ⟨h2, _⟩ | ⟨hodd, h3ne, hge3, _, _⟩
    · rw [h2]; decide
    · exact next_candidate_u64_fix _ hodd hge3 h3ne
  · intro n
    rcases next_candidate_spec n with ⟨h2, _⟩ | ⟨hodd, h3ne, h5ne, hge3, _⟩
    · rw [h2]; decide
    · exact next_candidate_fix _ hodd hge3 h3ne h5ne

/-- C7 witness: concrete instantiation of the amended claim. -/
theorem c7_witness :
    (14 : Nat) ≤ U64MAX - 2 ∧
    next_candidate_u64 (next_candidate_u64 14) = next_candidate_u64 14 ∧
    next_candidate ((next_candidate (3 : Int) : Nat) : Int) = next_candidate (3 : Int) :=
  ⟨by decide, c7_idempotent_amended.1 14 (by decide), c7_idempotent_amended.2 3⟩

/-- C10: `miller_rabin` returns `true` on every prime, for every round
count and every state of the random engine (modelled as an arbitrary word
stream): no choice of random bases can make a prime be reported composite,
so the probabilistic test's errors are one-sided. -/
theorem c10_miller_rabin_one_sided (n : Nat) (hn : n.Prime) (rounds : Nat)
    (g : RngStream) (pos : Nat) : (miller_rabin n rounds g pos).1 = true :=
  miller_rabin_prime_true n hn rounds g pos

/-- C10 witness: concrete instantiation at the prime 1000003. -/
theorem c10_witness :
    Nat.Prime 1000003 ∧ (miller_rabin 1000003 32 (fun _ => 0) 0).1 = true :=
  ⟨by norm_num, c10_miller_rabin_one_sided 1000003 (by norm_num) 32 (fun _ => 0) 0⟩

/-- Big `is_prime` rejects even numbers above 2 (second table entry scan). -/
theorem is_prime_big_even (n : Nat) (g : RngStream) (pos : Nat)
    (h2 : 2 < n) (he : n % 2 = 0) : (is_prime n g pos).1 = false := by
  rw [is_prime, if_neg (by omega)]
  have hscan : trialScan SMALL_PRIMES n = some false := by
    rw [SMALL_PRIMES, trialScan, if_neg (by omega), if_pos he]
  rw [hscan]

/-- Big `is_prime` rejects 0 and 1. -/
theorem is_prime_big_lt_two (n : Nat) (g : RngStream) (pos : Nat)
    (h : n < 2) : (is_prime n g pos).1 = false := by
  rw [is_prime, if_pos h]

/-- C8: in both domains (and under either `mul_mod` branch of the 64-bit
file) every small-prime-table entry is accepted by the trial-division
short-circuit, every even value above 2 is rejected, and every value below
2 is rejected. -/
theorem c8_table_parity_edges :
    (∀ mm : Nat → Nat → Nat → Nat, ∀ p ∈ small_primes_u64,
      is_prime_u64_with mm p = true) ∧
    (∀ (g : RngStream) (pos : Nat), ∀ p ∈ SMALL_PRIMES,
      (is_prime p g pos).1 = true) ∧
    (∀ mm : Nat → Nat → Nat → Nat, ∀ n, 2 < n → n % 2 = 0 →
      is_prime_u64_with mm n = false) ∧
    (∀ n (g : RngStream) (pos : Nat), 2 < n → n % 2 = 0 →
      (is_prime n g pos).1 = false) ∧
    (∀ mm : Nat → Nat → Nat → Nat, ∀ n, n < 2 → is_prime_u64_with mm n = false) ∧
    (∀ n (g : RngStream) (pos : Nat), n < 2 → (is_prime n g pos).1 = false) := by
  refine ⟨?_, ?_, ?_, ?_, ?_, ?_⟩
  · have h1 : ∀ p ∈ small_primes_u64,
        trialScan small_primes_u64 p = some true ∧ 2 ≤ p := by decide
    intro mm p hp
    obtain ⟨ht, h2⟩ := h1 p hp
    rw [is_prime_u64_with, if_neg (by omega), ht]
  · have h1 : ∀ p ∈ SMALL_PRIMES,
        trialScan SMALL_PRIMES p = some true ∧ 2 ≤ p := by decide
    intro g pos p hp
    obtain ⟨ht, h2⟩ := h1 p hp
    rw [is_prime, if_neg (by omega), ht]
  · exact fun mm n h2 he => is_prime_u64_with_even mm n h2 he
  · exact fun n g pos h2 he => is_prime_big_even n g pos h2 he
  · exact fun mm n h => is_prime_u64_with_lt_two mm n h
  · exact fun n g pos h => is_prime_big_lt_two n g pos h

/-- C8 witness: concrete instantiations of every part. -/
theorem c8_witness :
    is_prime_u64_with mul_mod 37 = true ∧
    (is_prime 499 (fun _ => 0) 0).1 = true ∧
    is_prime_u64_with mul_mod 10 = false ∧
    (is_prime 10 (fun _ => 0) 0).1 = false ∧
    is_prime_u64_with mul_mod 1 = false ∧
    (is_prime 0 (fun _ => 0) 0).1 = false :=
  ⟨c8_table_parity_edges.1 mul_mod 37 (by decide),
   c8_table_parity_edges.2.1 (fun _ => 0) 0 499 (by decide),
   c8_table_parity_edges.2.2.1 mul_mod 10 (by norm_num) (by norm_num),
   c8_table_parity_edges.2.2.2.1 10 (fun _ => 0) 0 (by norm_num) (by norm_num),
   c8_table_parity_edges.2.2.2.2.1 mul_mod 1 (by norm_num),
   c8_table_parity_edges.2.2.2.2.2 0 (fun _ => 0) 0 (by norm_num)⟩

/-- C9 (counterexample): a malformed second argument (the count) reaches
`std::stoull` outside any try/catch in both `main`s, so the processes
terminate on an uncaught exception — neither exit code 0 nor exit code 1,
and a second user-facing error kind beyond the malformed start. -/
theorem c9_counterexample :
    main_u64 ["7", "xyz"] = ExitResult.uncaught ∧
    main_big ["7", "xyz"] (fun _ => 0) 0 = ExitResult.uncaught :=
  ⟨rfl, rfl⟩

/-- C9 (amended): both `main`s return exit code 1 exactly when the first
argument fails to parse as the domain's integer, and exit code 0 when all
supplied arguments parse (including the no-argument default runs); however
a malformed second argument escapes as an uncaught exception (abnormal
termination), so the malformed start is not the only user-facing error
kind. -/
theorem c9_exit_codes_amended :
    (∀ s rest, stoullModel s = none → main_u64 (s :: rest) = ExitResult.ok 1) ∧
    (main_u64 [] = ExitResult.ok 0) ∧
    (∀ s v, stoullModel s = some v → main_u64 [s] = ExitResult.ok 0) ∧
    (∀ s v c cv rest, stoullModel s = some v → stoullModel c = some cv →
      main_u64 (s :: c :: rest) = ExitResult.ok 0) ∧
    (∀ s v c rest, stoullModel s = some v → stoullModel c = none →
      main_u64 (s :: c :: rest) = ExitResult.uncaught) ∧
    (∀ s rest g fuel, cppIntReadModel s = none →
      main_big (s :: rest) g fuel = ExitResult.ok 1) ∧
    (∀ g fuel, main_big [] g fuel = ExitResult.ok 0) ∧
    (∀ s v g fuel, cppIntReadModel s = some v →
      main_big [s] g fuel = ExitResult.ok 0) ∧
    (∀ s v c cv rest g fuel, cppIntReadModel s = some v → stoullModel c = some cv →
      main_big (s :: c :: rest) g fuel = ExitResult.ok 0) ∧
    (∀ s v c rest g fuel, cppIntReadModel s = some v → stoullModel c = none →
      main_big (s :: c :: rest) g fuel = ExitResult.uncaught) := by
  refine ⟨?_, rfl, ?_, ?_, ?_, ?_, fun g fuel => rfl, ?_, ?_, ?_⟩
  · intro s rest h
    simp only [main_u64, show (s :: rest)[0]? = some s by simp, h]
  · intro s v h
    simp only [main_u64, show [s][0]? = some s by simp,
      show ([s] : List String)[1]? = none by simp, h]
  · intro s v c cv rest h hc
    simp only [main_u64, show (s :: c :: rest)[0]? = some s by simp,
      show (s :: c :: rest)[1]? = some c by simp, h, hc]
  · intro s v c rest h hc
    simp only [main_u64, show (s :: c :: rest)[0]? = some s by simp,
      show (s :: c :: rest)[1]? = some c by simp, h, hc]
  · intro s rest g fuel h
    simp only [main_big, show (s :: rest)[0]? = some s by simp, h]
  · intro s v g fuel h
    simp only [main_big, show [s][0]? = some s by simp,
      show ([s] : List String)[1]? = none by simp, h]
  · intro s v c cv rest g fuel h hc
    simp only [main_big, show (s :: c :: rest)[0]? = some s by simp,
      show (s :: c :: rest)[1]? = some c by simp, h, hc]
  · intro s v c rest g fuel h hc
    simp only [main_big, show (s :: c :: rest)[0]? = some s by simp,
      show (s :: c :: rest)[1]? = some c by simp, h, hc]

/-- C9 witness: concrete instantiations. -/
theorem c9_witness :
    stoullModel "xyz" = none ∧ main_u64 ["xyz"] = ExitResult.ok 1 ∧
    stoullModel "7" = some 7 ∧ main_u64 ["7", "xyz"] = ExitResult.uncaught ∧
    cppIntReadModel "xyz" = none ∧
    main_big ["xyz"] (fun _ => 0) 0 = ExitResult.ok 1 ∧
    main_u64 ["7", "5"] = ExitResult.ok 0 :=
  ⟨by decide, c9_exit_codes_amended.1 "xyz" [] (by decide), by decide,
   c9_exit_codes_amended.2.2.2.2.1 "7" 7 "xyz" [] (by decide) (by decide),
   by decide, c9_exit_codes_amended.2.2.2.2.2.1 "xyz" [] (fun _ => 0) 0 (by decide),
   c9_exit_codes_amended.2.2.2.1 "7" 7 "5" 5 [] (by decide) (by decide)⟩

/-- C2 (counterexample): two violations of the claim as stated. With
`count = 0` and `start ≤ 2` the pre-loop special case pushes 2 before the
size check, so the result has MORE than `count` values; and at
`start = 2^64 - 1` the candidate wraps, so the 64-bit generator returns
values below `start`. -/
theorem c2_counterexample :
    generate_primes_u64 0 0 = [2] ∧
    generate_primes_u64 18446744073709551615 3 = [3, 5, 7] :=
  ⟨by decide, by decide⟩

/-- C2 (amended): for the 64-bit domain with `start` in the wrap-free zone
`start ≤ 2^64 - 3`: the result is strictly increasing, every value is at
least `start`, within the `uint64_t` range and passes `is_prime_u64`; for
`count ≥ 1` at most `count` values are returned, and a shorter result
occurs only on numeric-range exhaustion (every candidate from the
normalized start up to the ceiling that passes the check is then already
in the result); for `count = 0` the result is `[]`, or `[2]` when the
pre-loop special case fires. For the unbounded domain: with sufficient
fuel the result has exactly `count` values (for `count ≥ 1`), is strictly
increasing, and every value is at least `start` and passed the `is_prime`
reference check at its engine position; `count = 0` again yields `[]` or
`[2]`. -/
theorem c2_generate_primes_amended :
    (∀ start count : Nat, start ≤ U64MAX - 2 →
      List.Sorted (· < ·) (generate_primes_u64 start count) ∧
      (∀ x ∈ generate_primes_u64 start count,
        start ≤ x ∧ x ≤ U64MAX ∧ is_prime_u64 x = true) ∧
      (1 ≤ count → (generate_primes_u64 start count).length ≤ count) ∧
      (count = 0 → generate_primes_u64 start count = [] ∨
        generate_primes_u64 start count = [2]) ∧
      ((generate_primes_u64 start count).length < count →
        ∀ m, next_candidate_u64 start ≤ m → m ≤ U64MAX - 2 →
          is_prime_u64 m = true → m ∈ generate_primes_u64 start count)) ∧
    (∀ (g : RngStream) (start : Int) (count : Nat), 1 ≤ count →
      ∃ f0, ∀ fuel, f0 ≤ fuel →
        (generate_primes g start count fuel).length = count ∧
        List.Sorted (· < ·) (generate_primes g start count fuel) ∧
        (∀ x ∈ generate_primes g start count fuel,
          start ≤ (x : Int) ∧ ∃ q, (is_prime x g q).1 = true)) ∧
    (∀ (g : RngStream) (start : Int) (fuel : Nat),
      generate_primes g start 0 fuel = [] ∨ generate_primes g start 0 fuel = [2]) := by
  have hM := U64MAX_val
  have hMOD := U64MOD_val
  refine ⟨?_, ?_, ?_⟩
  · -- 64-bit domain
    intro start count hstart
    rcases next_candidate_u64_spec start hstart with ⟨hn0, hst2⟩ | ⟨hodd, h3ne, hge3, hle, hge⟩
    · -- start ≤ 2, special-cased 2
      have hgen : generate_primes_u64 start count = genLoopU64 count U64MOD 3 [2] := by
        simp only [generate_primes_u64]
        rw [hn0, if_pos rfl]
      rw [hgen]
      obtain ⟨hs, hm, hl⟩ := genLoopU64_inv count U64MOD 3 [2]
        (by norm_num) (by norm_num) (by omega) (List.sorted_singleton 2)
        (by intro x hx; rw [List.mem_singleton] at hx; omega)
      refine ⟨hs, ?_, ?_, ?_, ?_⟩
      · intro x hx
        rcases hm x hx with hx' | hx'
        · rw [List.mem_singleton] at hx'
          subst hx'
          exact ⟨by omega, by omega, by decide⟩
        · exact ⟨by omega, by omega, hx'.2.2⟩
      · intro hc1
        simp only [List.length_singleton] at hl
        omega
      · intro hc0
        subst hc0
        right
        exact genLoopU64_done 0 U64MOD 3 [2] (by simp)
      · intro hshort m hm1 hm2 hmp
        rw [hn0] at hm1
        by_cases hm2' : m = 2
        · subst hm2'
          exact genLoopU64_acc_mem count U64MOD 3 [2] 2 (by simp)
        · have hmodd : m % 2 = 1 := by
            by_contra hme
            have hfalse : is_prime_u64 m = false :=
              is_prime_u64_with_even mul_mod m (by omega) (by omega)
            rw [hfalse] at hmp
            exact Bool.false_ne_true hmp
          exact genLoopU64_exhaust count U64MOD 3 [2] (by norm_num) (by norm_num)
            (by omega) (by omega) hshort m (by omega) hm2 hmp
    · -- start ≥ 3, loop from the normalized candidate
      have hn0ne : next_candidate_u64 start ≠ 2 := by omega
      have hgen : generate_primes_u64 start count =
          genLoopU64 count U64MOD (next_candidate_u64 start) [] := by
        simp only [generate_primes_u64]
        rw [if_neg hn0ne]
      rw [hgen]
      obtain ⟨hs, hm, hl⟩ := genLoopU64_inv count U64MOD (next_candidate_u64 start) []
        hodd hge3 hle List.sorted_nil (by intro x hx; simp at hx)
      refine ⟨hs, ?_, ?_, ?_, ?_⟩
      · intro x hx
        rcases hm x hx with hx' | hx'
        · simp at hx'
        · exact ⟨by omega, by omega, hx'.2.2⟩
      · intro hc1; simp at hl; omega
      · intro hc0
        subst hc0
        left
        exact genLoopU64_done 0 U64MOD (next_candidate_u64 start) [] (by simp)
      · intro hshort m hm1 hm2 hmp
        have hmodd : m % 2 = 1 := by
          by_contra hme
          have hfalse : is_prime_u64 m = false :=
            is_prime_u64_with_even mul_mod m (by omega) (by omega)
          rw [hfalse] at hmp
          exact Bool.false_ne_true hmp
        exact genLoopU64_exhaust count U64MOD (next_candidate_u64 start) []
          hodd hge3 hle (by omega) hshort m hm1 hm2 hmp
  · -- unbounded domain, count ≥ 1
    intro g start count hc1
    rcases next_candidate_spec start with ⟨hn0, hst2⟩ | ⟨hodd, h3ne, h5ne, hge3, hge⟩
    · have hgen : ∀ fuel, generate_primes g start count fuel =
          genLoopBig g count fuel 3 [2] 0 := by
        intro fuel
        simp only [generate_primes]
        rw [hn0, if_pos rfl]
      obtain ⟨f0, hf0⟩ := genLoopBig_count g count (count - 1) 3 [2] 0
        (by norm_num) (by norm_num) (by simp; omega) (by simp; omega)
      refine ⟨f0, fun fuel hf => ?_⟩
      rw [hgen fuel]
      obtain ⟨hs, hm, _⟩ := genLoopBig_inv g count fuel 3 [2] 0
        (List.sorted_singleton 2)
        (by intro x hx; rw [List.mem_singleton] at hx; omega)
      refine ⟨hf0 fuel hf, hs, ?_⟩
      intro x hx
      rcases hm x hx with hx' | hx'
      · rw [List.mem_singleton] at hx'
        subst hx'
        exact ⟨by omega, 0, is_prime_prime_true 2 Nat.prime_two g 0⟩
      · refine ⟨?_, hx'.2⟩
        have : (3 : Int) ≤ (x : Int) := by exact_mod_cast hx'.1
        omega
    · have hn0ne : next_candidate start ≠ 2 := by omega
      have hgen : ∀ fuel, generate_primes g start count fuel =
          genLoopBig g count fuel (next_candidate start) [] 0 := by
        intro fuel
        simp only [generate_primes]
        rw [if_neg hn0ne]
      obtain ⟨f0, hf0⟩ := genLoopBig_count g count count (next_candidate start) [] 0
        hodd hge3 (by simp) (by simp)
      refine ⟨f0, fun fuel hf => ?_⟩
      rw [hgen fuel]
      obtain ⟨hs, hm, _⟩ := genLoopBig_inv g count fuel (next_candidate start) [] 0
        List.sorted_nil (by intro x hx; simp at hx)
      refine ⟨hf0 fuel hf, hs, ?_⟩
      intro x hx
      rcases hm x hx with hx' | hx'
      · simp at hx'
      · refine ⟨?_, hx'.2⟩
        have hcast : ((next_candidate start : Nat) : Int) ≤ (x : Int) := by
          exact_mod_cast hx'.1
        omega
  · -- unbounded domain, count = 0
    intro g start fuel
    simp only [generate_primes]
    by_cases h : next_candidate start = 2
    · rw [h, if_pos rfl, genLoopBig_done g 0 fuel 3 [2] 0 (by simp)]
      right; rfl
    · rw [if_neg h, genLoopBig_done g 0 fuel _ [] 0 (by simp)]
      left; rfl

/-- C2 witness: concrete instantiations of both domains. -/
theorem c2_witness :
    ((0 : Nat) ≤ U64MAX - 2 ∧ List.Sorted (· < ·) (generate_primes_u64 0 5)) ∧
    ((1 : Nat) ≤ 2 ∧ ∃ f0, ∀ fuel, f0 ≤ fuel →
      (generate_primes (fun _ => 0) 0 2 fuel).length = 2 ∧
      List.Sorted (· < ·) (generate_primes (fun _ => 0) 0 2 fuel) ∧
      (∀ x ∈ generate_primes (fun _ => 0) 0 2 fuel,
        (0 : Int) ≤ (x : Int) ∧ ∃ q, (is_prime x (fun _ => 0) q).1 = true)) :=
  ⟨⟨by decide, (c2_generate_primes_amended.1 0 5 (by decide)).1⟩,
   ⟨by norm_num, c2_generate_primes_amended.2.1 (fun _ => 0) 0 2 (by norm_num)⟩⟩

example : mul_mod_msvc (2 ^ 63) 2 (2 ^ 64 - 1) = 0 := by decide
example : (2 ^ 63 * 2) % (2 ^ 64 - 1) = 1 := by decide
example : next_candidate_u64 3 = 5 := by decide
example : next_candidate_u64 (2 ^ 64 - 1) = 1 := by decide
example : generate_primes_u64 0 5 = [2, 3, 5, 7, 11] := by decide
example : generate_primes_u64 14 1 = [17] := by decide
example : generate_primes_u64 0 0 = [2] := by decide
example : generate_primes_u64 (2 ^ 64 - 1) 3 = [3, 5, 7] := by decide
example : pow_mod 5 0 1 = 1 := by decide
example : is_prime_u64 561 = false := by decide
